import Mathlib

/-!
Verification of the recursive-proof layer of the Halo prototype
(`src/recursion.rs`).  The development shallowly embeds the Rust source:

* bytes are natural numbers, bit decomposition is little-endian within a
  byte exactly as in the `(byte >> i) & 1` loops of the source;
* the external proof system (`Proof`, `Leftovers`, `Deferred`) is kept
  abstract: its verification routines become fields of an environment
  record, so that `RecursiveProof::verify_inner` / `verify` /
  `create_proof` can be translated line by line;
* the in-circuit gadgets (`CurvePoint`, `RescueGadget`, `unpack_fe`),
  which live outside the provided source tree, are modelled from the
  spec's interface description (sponge transcript with absorb/squeeze,
  curve points with affine coordinates and scalar multiplication,
  256-bit canonical field-element serialization);
* a Rust panic (an `unwrap` failure) is modelled as `Option.none` at the
  outermost level, while `Result<_, SynthesisError>` becomes `Except`.
-/

namespace HaloRecursion

/-- The error type of the constraint-system layer.  The source only ever
constructs `AssignmentMissing` itself; other causes produced by the
external proof system are collapsed into `Other`. -/
inductive SynthesisError where
  | AssignmentMissing : SynthesisError
  | Other : SynthesisError
deriving DecidableEq, Repr

/-- Little-endian bit decomposition of one byte, as in the source loops
`for i in 0..8 { let b = ((byte >> i) & 1) == 1; ... }`. -/
def byteToBits (b : Nat) : List Bool :=
  (List.range 8).map (fun i => b.testBit i)

/-- Concatenation of the bit decompositions of a byte string, in order. -/
def bytesToBits (bs : List Nat) : List Bool :=
  (bs.map byteToBits).flatten

/-- Value of a little-endian bit string as a natural number. -/
def bitsVal (bs : List Bool) : Nat :=
  bs.foldr (fun b acc => 2 * acc + (if b then 1 else 0)) 0

/-- First `len` little-endian bits of a natural number; this is the shape
of every fixed-width bit decomposition in the source (`to_bytes`
followed by per-byte bit expansion). -/
def natBits (n len : Nat) : List Bool :=
  (List.range len).map (fun i => n.testBit i)

theorem byteToBits_length (b : Nat) : (byteToBits b).length = 8 := by
  simp [byteToBits]

theorem natBits_length (n len : Nat) : (natBits n len).length = len := by
  simp [natBits]

theorem bytesToBits_nil : bytesToBits [] = [] := rfl

theorem bytesToBits_cons (b : Nat) (bs : List Nat) :
    bytesToBits (b :: bs) = byteToBits b ++ bytesToBits bs := by
  simp [bytesToBits]

theorem bytesToBits_length (bs : List Nat) :
    (bytesToBits bs).length = 8 * bs.length := by
  induction bs with
  | nil => rfl
  | cons b bs ih =>
      rw [bytesToBits_cons]
      simp [ih, byteToBits_length]
      ring

theorem byteToBits_getD (b : Nat) {i : Nat} (h : i < 8) :
    (byteToBits b).getD i false = b.testBit i := by
  simp [byteToBits, List.getD_eq_getElem?_getD, List.getElem?_map,
    List.getElem?_range h]

/-- Bit `8*q + r` of the concatenated bit string is bit `r` of byte `q`. -/
theorem bytesToBits_getD (bs : List Nat) :
    ∀ q r, q < bs.length → r < 8 →
      (bytesToBits bs).getD (8 * q + r) false = (bs.getD q 0).testBit r := by
  induction bs with
  | nil => intro q r hq _; exact absurd hq (Nat.not_lt_zero q)
  | cons b bs ih =>
      intro q r hq hr
      rw [bytesToBits_cons]
      cases q with
      | zero =>
          rw [List.getD_append _ _ _ _ (by simp [byteToBits_length]; omega)]
          simpa using byteToBits_getD b hr
      | succ q =>
          have hlen : (byteToBits b).length = 8 := byteToBits_length b
          have hge : 8 * (q + 1) + r ≥ (byteToBits b).length := by omega
          rw [List.getD_append_right _ _ _ _ (by omega)]
          have : 8 * (q + 1) + r - (byteToBits b).length = 8 * q + r := by omega
          rw [this]
          simpa using ih q r (by simpa using hq) hr

theorem bitsVal_nil : bitsVal [] = 0 := rfl

theorem bitsVal_cons (b : Bool) (bs : List Bool) :
    bitsVal (b :: bs) = 2 * bitsVal bs + (if b then 1 else 0) := rfl

theorem bitsVal_append (l1 l2 : List Bool) :
    bitsVal (l1 ++ l2) = bitsVal l1 + 2 ^ l1.length * bitsVal l2 := by
  induction l1 with
  | nil => simp [bitsVal_nil]
  | cons b bs ih =>
      simp only [List.cons_append, bitsVal_cons, ih, List.length_cons]
      ring

theorem bitsVal_lt (bs : List Bool) : bitsVal bs < 2 ^ bs.length := by
  induction bs with
  | nil => simp [bitsVal_nil]
  | cons b bs ih =>
      rw [bitsVal_cons]
      have : (if b then 1 else 0) ≤ 1 := by cases b <;> simp
      simp only [List.length_cons, pow_succ]
      omega

theorem natBits_succ (n len : Nat) :
    natBits n (len + 1) = n.testBit 0 :: natBits (n / 2) len := by
  rw [natBits, List.range_succ_eq_map]
  simp only [List.map_cons, List.map_map]
  congr 1
  · rw [natBits]
    apply List.map_congr_left
    intro i _
    simp [Function.comp, Nat.testBit_succ]

theorem bitsVal_natBits (n len : Nat) : bitsVal (natBits n len) = n % 2 ^ len := by
  induction len generalizing n with
  | zero => simp [natBits, bitsVal_nil, Nat.mod_one]
  | succ len ih =>
      rw [natBits_succ, bitsVal_cons, ih]
      have hp : (2 : Nat) ^ (len + 1) = 2 * 2 ^ len := by rw [pow_succ]; ring
      have e1 : n / 2 % 2 ^ len = n % 2 ^ (len + 1) / 2 := by
        rw [hp, ← Nat.mod_mul_right_div_self]
      have e2 : n % 2 = n % 2 ^ (len + 1) % 2 := by
        rw [Nat.mod_mod_of_dvd n (dvd_pow_self 2 (Nat.succ_ne_zero len))]
      have hif : (if n.testBit 0 then 1 else 0) = n % 2 := by
        rcases Nat.mod_two_eq_zero_or_one n with h | h <;>
          simp [Nat.testBit_zero, h]
      rw [hif]
      omega

theorem natBits_getD (n len : Nat) {i : Nat} (h : i < len) :
    (natBits n len).getD i false = n.testBit i := by
  simp [natBits, List.getD_eq_getElem?_getD, List.getElem?_map,
    List.getElem?_range h]

/-! ## The `RecursiveProof` protocol (`create_proof` / `verify_inner` / `verify`)

The external base proof system is kept abstract: `P` is the type of
wrapped proofs, `L` of `Leftovers` accumulators, `D` of `Deferred` data
and `G` the group of curve points.  The byte encodings and verification
routines of those external types become fields of `ProtocolEnv`.  A Rust
panic is `none`. -/

/-- A `RecursiveProof` record, as in the source structure: the wrapped
proof, the two accumulators, the deferred data, and the raw payload. -/
structure RecProof (P L D : Type) where
  proof : P
  oldproof1 : L
  oldproof2 : L
  deferred : D
  payload : List Nat

/-- Modelled from the spec: the interface of the out-of-scope base proof
system (`Proof::verify`, `Leftovers::verify`, `Deferred::verify`,
`Proof::new`, `to_bytes` serializations, the dummy constructors) and the
public parameters of the two curves.  Index 1 functions carry `e1params`,
index 2 functions carry `e2params`. -/
structure ProtocolEnv (P L D G : Type) where
  k1 : Nat
  k2 : Nat
  l1Bytes : L → List Nat
  l2Bytes : L → List Nat
  dBytes : D → List Nat
  proofVerify : P → L → List Bool → G → Except SynthesisError (Bool × L × D)
  l1Verify : L → Except SynthesisError Bool
  l2Verify : L → Except SynthesisError Bool
  d1Verify : D → Nat → Bool
  d2Verify : D → Nat → Bool
  proofNew : L → Except SynthesisError (P × L)
  dummyDeferred : D
  dummyNewLeftovers : L
  dummyOldLeftovers : L

variable {P L D G : Type}

/-- The public-input byte string of `verify_inner`: payload, then
`oldproof1`, `oldproof2` and `deferred` byte encodings, concatenated. -/
def publicInputBytes (env : ProtocolEnv P L D G) (rp : RecProof P L D) : List Nat :=
  rp.payload ++ env.l1Bytes rp.oldproof1 ++ env.l2Bytes rp.oldproof2 ++
    env.dBytes rp.deferred

/-- The generator-consuming loop building the k-commitment: one generator
per bit; a set bit adds the generator via `iter_gens.next().unwrap()`
(`none` = panic when the iterator is exhausted), a clear bit merely
advances the iterator (`iter_gens.next();` ignores exhaustion). -/
def kCommitLoop [AddCommGroup G] (acc : G) : List G → List Bool → Option G
  | _, [] => some acc
  | [], true :: _ => none
  | [], false :: rest => kCommitLoop acc [] rest
  | g :: gt, true :: rest => kCommitLoop (acc + g) gt rest
  | _ :: gt, false :: rest => kCommitLoop acc gt rest

/-- The k-commitment of `verify_inner`: start from `generators[1]` and
consume `generators[2..]` bit by bit (indexing `generators[1]` or slicing
`generators[2..]` panics when fewer than two generators exist). -/
def kCommitmentOf [AddCommGroup G] (gens : List G) (inputs : List Nat) : Option G :=
  match gens with
  | _ :: g1 :: rest => kCommitLoop g1 rest (bytesToBits inputs)
  | _ => none

/-- `RecursiveProof::verify_inner`: derive the public-input bits and the
k-commitment, verify the wrapped proof against them, and AND the result
with the direct verification of `oldproof2`; returns the success flag,
the freshly recomputed deferred data and the two accumulators. -/
def verify_inner [AddCommGroup G] (gens : List G) (env : ProtocolEnv P L D G)
    (rp : RecProof P L D) :
    Option (Except SynthesisError (Bool × D × L × L)) :=
  match kCommitmentOf gens (publicInputBytes env rp) with
  | none => none
  | some kc =>
      some (match env.proofVerify rp.proof rp.oldproof1
          (bytesToBits (publicInputBytes env rp)) kc with
        | Except.error e => Except.error e
        | Except.ok (worked, leftovers, deferred) =>
            match env.l2Verify rp.oldproof2 with
            | Except.error e => Except.error e
            | Except.ok worked2 =>
                Except.ok (worked && worked2, deferred, leftovers, rp.oldproof2))

/-- `RecursiveProof::verify`: `verify_inner`, then AND with the two
`Deferred::verify` checks and the two terminal accumulator checks. -/
def verify [AddCommGroup G] (gens : List G) (env : ProtocolEnv P L D G)
    (rp : RecProof P L D) : Option (Except SynthesisError Bool) :=
  match verify_inner gens env rp with
  | none => none
  | some (Except.error e) => some (Except.error e)
  | some (Except.ok (worked, deferred, a, b)) =>
      some (match env.l1Verify a with
        | Except.error e => Except.error e
        | Except.ok av =>
            match env.l2Verify b with
            | Except.error e => Except.error e
            | Except.ok bv =>
                Except.ok (worked && env.d2Verify rp.deferred env.k2 &&
                  env.d1Verify deferred env.k1 && av && bv))

/-- `RecursiveProof::create_proof`: with a previous proof, run its
`verify_inner` (over the swapped parameter pair, here `gensOld`/`envOld`),
binding `(_, newdeferred, l1, l2)` — the success flag is dropped — and
build the new record from `Proof::new`; without one, use the dummies. -/
def create_proof [AddCommGroup G] (gensOld : List G) (envOld : ProtocolEnv P L D G)
    (old : Option (RecProof P L D)) (newPayload : List Nat) :
    Option (Except SynthesisError (RecProof P L D)) :=
  match old with
  | some oldp =>
      match verify_inner gensOld envOld oldp with
      | none => none
      | some (Except.error e) => some (Except.error e)
      | some (Except.ok (_, newdeferred, l1, l2)) =>
          some (match envOld.proofNew l2 with
            | Except.error e => Except.error e
            | Except.ok (prf, _) => Except.ok ⟨prf, l2, l1, newdeferred, newPayload⟩)
  | none =>
      some (match envOld.proofNew envOld.dummyOldLeftovers with
        | Except.error e => Except.error e
        | Except.ok (prf, _) =>
            Except.ok ⟨prf, envOld.dummyOldLeftovers, envOld.dummyNewLeftovers,
              envOld.dummyDeferred, newPayload⟩)

/-- Closed form of the generator-consuming loop when the generator list is
long enough: every bit consumes one generator and a set bit `i` adds
generator `i`. -/
theorem kCommitLoop_closed [AddCommGroup G] (bits : List Bool) :
    ∀ (gens : List G) (acc : G), bits.length ≤ gens.length →
      kCommitLoop acc gens bits =
        some (acc + ∑ i ∈ Finset.range bits.length,
          if bits.getD i false then gens.getD i 0 else 0) := by
  induction bits with
  | nil => intro gens acc _; simp [kCommitLoop]
  | cons b rest ih =>
      intro gens acc hlen
      cases gens with
      | nil => simp at hlen
      | cons g gt =>
          have hlen' : rest.length ≤ gt.length := by
            simpa using hlen
          have hsum :
              (∑ i ∈ Finset.range (rest.length + 1),
                if (b :: rest).getD i false then (g :: gt).getD i 0 else 0) =
              (if b then g else 0) +
                ∑ i ∈ Finset.range rest.length,
                  if rest.getD i false then gt.getD i 0 else 0 := by
            rw [Finset.sum_range_succ']
            simp only [List.getD_cons_succ, List.getD_cons_zero]
            rw [add_comm]
          cases b with
          | true =>
              rw [show kCommitLoop acc (g :: gt) (true :: rest) =
                  kCommitLoop (acc + g) gt rest from rfl, ih gt (acc + g) hlen',
                List.length_cons, hsum]
              simp [add_assoc]
          | false =>
              rw [show kCommitLoop acc (g :: gt) (false :: rest) =
                  kCommitLoop acc gt rest from rfl, ih gt acc hlen',
                List.length_cons, hsum]
              simp

/-! ## Concrete fixtures used to instantiate the protocol theorems -/

/-- A trivial protocol environment over the integers: no accumulator or
deferred bytes, and every external verification succeeds. -/
def sampleEnv : ProtocolEnv Unit Unit Unit Int where
  k1 := 1
  k2 := 1
  l1Bytes := fun _ => []
  l2Bytes := fun _ => []
  dBytes := fun _ => []
  proofVerify := fun _ _ _ _ => Except.ok (true, (), ())
  l1Verify := fun _ => Except.ok true
  l2Verify := fun _ => Except.ok true
  d1Verify := fun _ _ => true
  d2Verify := fun _ _ => true
  proofNew := fun _ => Except.ok ((), ())
  dummyDeferred := ()
  dummyNewLeftovers := ()
  dummyOldLeftovers := ()

/-- A recursive-proof record with an empty payload. -/
def sampleProof : RecProof Unit Unit Unit := ⟨(), (), (), (), []⟩

/-- A recursive-proof record whose payload is the single byte `1`. -/
def panicProof : RecProof Unit Unit Unit := ⟨(), (), (), (), [1]⟩

/-- A variant environment whose wrapped-proof check reports `false`. -/
def failEnv : ProtocolEnv Unit Unit Unit Int :=
  { sampleEnv with
    proofVerify := fun _ _ _ _ => Except.ok (false, (), ())
    l2Verify := fun _ => Except.ok false }

/-- C2: the public-input bit vector of `verify_inner` concatenates the
payload and the three byte encodings and decomposes each byte into its
little-endian bits (`(byte >> i) & 1`); the k-commitment starts from
generator 1 and adds generator `i + 2` exactly when bit `i` is set, one
generator being consumed per bit whether or not the bit is set. -/
theorem C2_public_input_derivation {G : Type} [AddCommGroup G]
    (gens : List G) (inputs : List Nat) :
    ((bytesToBits inputs).length = 8 * inputs.length
      ∧ ∀ q r, q < inputs.length → r < 8 →
          (bytesToBits inputs).getD (8 * q + r) false = (inputs.getD q 0).testBit r)
    ∧ (2 + (bytesToBits inputs).length ≤ gens.length →
        kCommitmentOf gens inputs =
          some (gens.getD 1 0 + ∑ i ∈ Finset.range (bytesToBits inputs).length,
            if (bytesToBits inputs).getD i false then gens.getD (i + 2) 0 else 0)) := by
  refine ⟨⟨bytesToBits_length inputs,
    fun q r hq hr => bytesToBits_getD inputs q r hq hr⟩, ?_⟩
  intro hlen
  cases gens with
  | nil => simp at hlen
  | cons g0 gens' =>
      cases gens' with
      | nil => simp only [List.length_cons, List.length_nil] at hlen; omega
      | cons g1 rest =>
          have hlen' : (bytesToBits inputs).length ≤ rest.length := by
            simp at hlen; omega
          rw [kCommitmentOf, kCommitLoop_closed _ rest g1 hlen']
          simp [List.getD_cons_succ, List.getD_cons_zero]

/-- Witness for C2 at a concrete input: one payload byte `1`, ten integer
generators. -/
theorem C2_public_input_derivation_witness :
    kCommitmentOf ([0, 1, 2, 3, 4, 5, 6, 7, 8, 9] : List Int) [1] = some 3 := by
  have h := (C2_public_input_derivation
    ([0, 1, 2, 3, 4, 5, 6, 7, 8, 9] : List Int) [1]).2 (by decide)
  rw [h]
  decide

/-- C1: `verify` returns `Ok(true)` exactly when the wrapped proof
verifies, `oldproof2` verifies, both `Deferred::verify` checks pass and
both fresh accumulators pass `Leftovers::verify`; one failing boolean
sub-check yields `Ok(false)`. -/
theorem C1_verify_characterization {P L D G : Type} [AddCommGroup G]
    (gens : List G) (env : ProtocolEnv P L D G) (rp : RecProof P L D)
    (kc : G) (f1 f2 av : Bool) (l : L) (d : D)
    (hk : kCommitmentOf gens (publicInputBytes env rp) = some kc)
    (h1 : env.proofVerify rp.proof rp.oldproof1
        (bytesToBits (publicInputBytes env rp)) kc = Except.ok (f1, l, d))
    (h2 : env.l2Verify rp.oldproof2 = Except.ok f2)
    (h3 : env.l1Verify l = Except.ok av) :
    verify_inner gens env rp = some (Except.ok (f1 && f2, d, l, rp.oldproof2))
    ∧ verify gens env rp = some (Except.ok ((f1 && f2) &&
        env.d2Verify rp.deferred env.k2 && env.d1Verify d env.k1 && av && f2))
    ∧ (verify gens env rp = some (Except.ok true) ↔
        f1 = true ∧ f2 = true ∧ env.d2Verify rp.deferred env.k2 = true ∧
          env.d1Verify d env.k1 = true ∧ av = true) := by
  have hvi : verify_inner gens env rp =
      some (Except.ok (f1 && f2, d, l, rp.oldproof2)) := by
    simp only [verify_inner, hk, h1, h2]
  have hv : verify gens env rp = some (Except.ok ((f1 && f2) &&
      env.d2Verify rp.deferred env.k2 && env.d1Verify d env.k1 && av && f2)) := by
    simp only [verify, hvi, h3, h2]
  refine ⟨hvi, hv, ?_⟩
  rw [hv]
  constructor
  · intro h
    have hb : ((f1 && f2) && env.d2Verify rp.deferred env.k2 &&
        env.d1Verify d env.k1 && av && f2) = true := by
      have := Option.some.inj h
      exact Except.ok.inj this
    simp only [Bool.and_eq_true] at hb
    exact ⟨hb.1.1.1.1.1, hb.1.1.1.1.2, hb.1.1.1.2, hb.1.1.2, hb.1.2⟩
  · rintro ⟨e1, e2, e3, e4, e5⟩
    rw [e1, e2, e3, e4, e5]
    rfl

/-- Witness for C1: the all-succeeding sample environment on the empty
payload makes `verify` return `Ok(true)`. -/
theorem C1_verify_characterization_witness :
    verify ([0, 0] : List Int) sampleEnv sampleProof = some (Except.ok true) := by
  have h := C1_verify_characterization ([0, 0] : List Int) sampleEnv sampleProof
    0 true true true () () rfl rfl rfl rfl
  exact h.2.2.mpr ⟨rfl, rfl, rfl, rfl, rfl⟩

/-- Counterexample to C9 as stated: with two generators and payload byte
`1`, the set bit exhausts the generator iterator and
`iter_gens.next().unwrap()` panics (modelled as `none`), so `verify_inner`
does not return `Ok` or `Err` for arbitrary payload lengths. -/
theorem C9_verify_inner_panics : verify_inner ([0, 0] : List Int) sampleEnv panicProof
    = none := rfl

/-- C9 (amended): `verify_inner` never panics provided the parameter set
holds at least `2 + 8 * (number of public-input bytes)` generators. -/
theorem C9_verify_inner_no_panic {P L D G : Type} [AddCommGroup G]
    (gens : List G) (env : ProtocolEnv P L D G) (rp : RecProof P L D)
    (h : 2 + 8 * (publicInputBytes env rp).length ≤ gens.length) :
    verify_inner gens env rp ≠ none := by
  cases gens with
  | nil => simp at h
  | cons g0 gens' =>
      cases gens' with
      | nil => simp only [List.length_cons, List.length_nil] at h; omega
      | cons g1 rest =>
          have hlen : (bytesToBits (publicInputBytes env rp)).length ≤ rest.length := by
            rw [bytesToBits_length]
            simp at h; omega
          rw [verify_inner, kCommitmentOf, kCommitLoop_closed _ rest g1 hlen]
          simp

/-- Witness for the amended C9 at a concrete input. -/
theorem C9_verify_inner_no_panic_witness :
    verify_inner ([0, 1, 2, 3, 4, 5, 6, 7, 8, 9] : List Int) sampleEnv panicProof
      ≠ none :=
  C9_verify_inner_no_panic ([0, 1, 2, 3, 4, 5, 6, 7, 8, 9] : List Int)
    sampleEnv panicProof (by decide)

/-- C10: `create_proof` binds the success flag of the previous proof's
`verify_inner` to `_`: whatever the flag, a successful `Proof::new` yields
`Ok` with the assembled record (old accumulator `l2`, twin accumulator
`l1`, fresh deferred data, new payload). -/
theorem C10_create_proof_ignores_flag {P L D G : Type} [AddCommGroup G]
    (gensOld : List G) (envOld : ProtocolEnv P L D G) (oldp : RecProof P L D)
    (newPayload : List Nat) (flag : Bool) (d : D) (l1 l2 : L) (prf : P) (x : L)
    (h1 : verify_inner gensOld envOld oldp = some (Except.ok (flag, d, l1, l2)))
    (h2 : envOld.proofNew l2 = Except.ok (prf, x)) :
    create_proof gensOld envOld (some oldp) newPayload =
      some (Except.ok ⟨prf, l2, l1, d, newPayload⟩) := by
  simp only [create_proof, h1, h2]

/-- Witness for C10: a previous proof whose `verify_inner` flag is `false`
still yields `Ok` from `create_proof`. -/
theorem C10_create_proof_ignores_flag_witness :
    create_proof ([0, 0] : List Int) failEnv (some sampleProof) [7] =
      some (Except.ok ⟨(), (), (), (), [7]⟩) :=
  C10_create_proof_ignores_flag ([0, 0] : List Int) failEnv sampleProof
    [7] false () () () () () rfl rfl

/-! ## `compute_b`, the IPA folding polynomial (circuit values) -/

/-- Value-level translation of `VerificationCircuit::compute_b`: one
challenge left gives `cinv_last + c_last * x`; otherwise multiply
`cinv_last + c_last * x` by the recursive call at the squared point on
the remaining challenges.  The recursion is phrased on the reversed
challenge lists, so `last`/`init` of the source become head/tail. -/
def compute_b_rev {F : Type} [Field F] : F → List F → List F → F
  | x, c :: c2 :: cs, ci :: ci2 :: cis =>
      (ci + c * x) * compute_b_rev (x * x) (c2 :: cs) (ci2 :: cis)
  | x, [c], [ci] => ci + c * x
  | _, _, _ => 0

/-- `compute_b x challenges challenges_inv` as in the source: challenges
in round order, the last challenge peeled first. -/
def compute_b {F : Type} [Field F] (x : F) (cs cis : List F) : F :=
  compute_b_rev x cs.reverse cis.reverse

/-- Modelled from the spec: the direct product form of the `b`
polynomial — one factor `c⁻¹ + c * x^(2^i)` per challenge, where `i`
counts challenges from the end of the round order. -/
def specProductForm {F : Type} [Field F] : F → List F → F
  | _, [] => 1
  | x, c :: cs => (c⁻¹ + c * x) * specProductForm (x * x) cs

theorem mul_self_pow_two_pow {F : Type} [Monoid F] (x : F) (i : Nat) :
    (x * x) ^ (2 ^ i) = x ^ (2 ^ (i + 1)) := by
  rw [← pow_two, ← pow_mul]
  congr 1
  rw [pow_succ]
  ring

theorem compute_b_rev_eq_prod {F : Type} [Field F] :
    ∀ (cs : List F) (c x : F),
      compute_b_rev x (c :: cs) ((c :: cs).map fun y => y⁻¹) =
        specProductForm x (c :: cs)
  | [], c, x => by simp [compute_b_rev, specProductForm]
  | c2 :: cs, c, x => by
      have hstep : compute_b_rev x (c :: c2 :: cs) ((c :: c2 :: cs).map fun y => y⁻¹) =
          (c⁻¹ + c * x) *
            compute_b_rev (x * x) (c2 :: cs) ((c2 :: cs).map fun y => y⁻¹) := rfl
      rw [hstep, compute_b_rev_eq_prod cs c2 (x * x)]
      rfl

theorem specProductForm_eq_prod {F : Type} [Field F] :
    ∀ (cs : List F) (x : F),
      specProductForm x cs =
        ∏ i ∈ Finset.range cs.length,
          ((cs.getD i 0)⁻¹ + cs.getD i 0 * x ^ (2 ^ i))
  | [], x => by simp [specProductForm]
  | c :: cs, x => by
      rw [show specProductForm x (c :: cs) =
          (c⁻¹ + c * x) * specProductForm (x * x) cs from rfl,
        specProductForm_eq_prod cs (x * x), List.length_cons,
        Finset.prod_range_succ', mul_comm]
      congr 1
      · refine Finset.prod_congr rfl fun i _ => ?_
        simp only [List.getD_cons_succ]
        rw [mul_self_pow_two_pow]
      · simp

/-- C4: `compute_b` satisfies the base law `b(x; c) = c⁻¹ + c·x`, the
recursion `b(x; cs ++ [c]) = (c⁻¹ + c·x) · b(x²; cs)`, and equals the
direct product form `∏ (cᵢ⁻¹ + cᵢ · x^(2^i))` with the `i`-th factor
taken from the `i`-th challenge counted from the end. -/
theorem C4_compute_b_product_form {F : Type} [Field F] (x : F) (cs : List F)
    (h : cs ≠ []) :
    (∀ c : F, compute_b x [c] [c⁻¹] = c⁻¹ + c * x)
    ∧ (∀ (c : F) (cis : List F), cis ≠ [] →
        compute_b x (cs ++ [c]) (cis ++ [c⁻¹]) =
          (c⁻¹ + c * x) * compute_b (x * x) cs cis)
    ∧ compute_b x cs (cs.map fun y => y⁻¹) =
        ∏ i ∈ Finset.range cs.length,
          ((cs.reverse.getD i 0)⁻¹ + cs.reverse.getD i 0 * x ^ (2 ^ i)) := by
  have hrev : cs.reverse ≠ [] := fun hr => h (by simpa using hr)
  refine ⟨fun c => rfl, ?_, ?_⟩
  · intro c cis hcis
    have hcisrev : cis.reverse ≠ [] := fun hr => hcis (by simpa using hr)
    obtain ⟨a, as, ha⟩ := List.exists_cons_of_ne_nil hrev
    obtain ⟨b, bs, hb⟩ := List.exists_cons_of_ne_nil hcisrev
    rw [compute_b, compute_b, List.reverse_append, List.reverse_append]
    simp only [List.reverse_singleton, List.singleton_append]
    rw [ha, hb]
    rfl
  · obtain ⟨a, as, ha⟩ := List.exists_cons_of_ne_nil hrev
    rw [compute_b, ← List.map_reverse, ha, compute_b_rev_eq_prod,
      specProductForm_eq_prod, ← ha, List.length_reverse]

/-- Witness for C4 at a concrete input over the rationals. -/
theorem C4_compute_b_product_form_witness :
    compute_b (2 : ℚ) [2, 3] (([2, 3] : List ℚ).map fun y => y⁻¹) =
      ∏ i ∈ Finset.range ([2, 3] : List ℚ).length,
        ((([2, 3] : List ℚ).reverse.getD i 0)⁻¹ +
          ([2, 3] : List ℚ).reverse.getD i 0 * (2 : ℚ) ^ (2 ^ i)) :=
  (C4_compute_b_product_form (2 : ℚ) [2, 3] (by simp)).2.2

/-! ## `get_challenge` (Fiat–Shamir challenges in the circuit) -/

/-- Modelled from the spec: `unpack_fe` (gadget layer, not in `src/`)
decomposes a field element into its canonical fixed-width 256-bit
little-endian bit representation; the element is represented here by its
canonical natural value. -/
def unpack_fe_bits (n : Nat) : List Bool := natBits n 256

/-- `VerificationCircuit::get_challenge`: squeeze the transcript (the
squeezed element's canonical value is `n`), unpack it to bits, truncate
to 127 bits, and push a constant 1 bit on top. -/
def get_challenge_bits (n : Nat) : List Bool :=
  (unpack_fe_bits n).take 127 ++ [true]

/-- C7: every challenge is exactly 128 bits, its low 127 bits are the low
bits of the squeezed element, its top bit is the constant 1, and its
value is in canonical 128-bit range and non-zero. -/
theorem C7_get_challenge (n : Nat) :
    (get_challenge_bits n).length = 128
    ∧ (get_challenge_bits n).getD 127 false = true
    ∧ (∀ i, i < 127 → (get_challenge_bits n).getD i false = n.testBit i)
    ∧ 2 ^ 127 ≤ bitsVal (get_challenge_bits n)
    ∧ bitsVal (get_challenge_bits n) < 2 ^ 128
    ∧ bitsVal (get_challenge_bits n) ≠ 0 := by
  have htl : ((unpack_fe_bits n).take 127).length = 127 := by
    simp [unpack_fe_bits, natBits_length]
  have hlen : (get_challenge_bits n).length = 128 := by
    simp [get_challenge_bits, htl]
  have hval : bitsVal (get_challenge_bits n) =
      bitsVal ((unpack_fe_bits n).take 127) + 2 ^ 127 := by
    rw [get_challenge_bits, bitsVal_append, htl]
    simp [bitsVal_cons, bitsVal_nil]
  have hlt : bitsVal ((unpack_fe_bits n).take 127) < 2 ^ 127 := by
    have := bitsVal_lt ((unpack_fe_bits n).take 127)
    rwa [htl] at this
  refine ⟨hlen, ?_, ?_, ?_, ?_, ?_⟩
  · rw [get_challenge_bits, List.getD_append_right _ _ _ _ (le_of_eq htl)]
    rw [htl]
    rfl
  · intro i hi
    rw [get_challenge_bits, List.getD_append _ _ _ _ (by omega)]
    rw [List.getD_eq_getElem?_getD, List.getElem?_take, if_pos hi,
      ← List.getD_eq_getElem?_getD]
    exact natBits_getD n 256 (by omega)
  · omega
  · have : (2 : Nat) ^ 128 = 2 ^ 127 + 2 ^ 127 := by rw [pow_succ]; ring
    omega
  · have h0 : (0 : Nat) < 2 ^ 127 := Nat.pos_pow_of_pos 127 (by norm_num)
    omega

/-- Witness for C7 at the concrete squeezed value 5. -/
theorem C7_get_challenge_witness :
    (get_challenge_bits 5).length = 128
    ∧ (get_challenge_bits 5).getD 2 false = Nat.testBit 5 2
    ∧ bitsVal (get_challenge_bits 5) ≠ 0 :=
  ⟨(C7_get_challenge 5).1, (C7_get_challenge 5).2.2.1 2 (by norm_num),
    (C7_get_challenge 5).2.2.2.2.2⟩

/-! ## The conditional-equality helpers -/

/-- Conversion of a bit into the circuit field, as in the source
`let lhs: E1::Scalar = lhs.into();`. -/
def b2f {F : Type} [Zero F] [One F] (b : Bool) : F := if b then 1 else 0

/-- The constraints emitted per element by `num_equal_unless_base_case`
and `equal_unless_base_case`: the multiplication gate `a * b = c`
together with the three linear constraints `a - lhs + rhs = 0`,
`b - 1 + base_case = 0` and `c = 0`. -/
def eubcGate {F : Type} [Field F] (bc lhs rhs a b c : F) : Prop :=
  a * b = c ∧ a - lhs + rhs = 0 ∧ b - 1 + bc = 0 ∧ c = 0

/-- Satisfiability of the per-element conditional-equality gate in its
internal wires. -/
def eubcHolds {F : Type} [Field F] (bc : Bool) (lhs rhs : F) : Prop :=
  ∃ a b c : F, eubcGate (b2f bc) lhs rhs a b c

/-- Per-bit satisfiability of `equal_unless_base_case` over two bit
vectors (the source zips the two slices). -/
def eubcSat (F : Type) [Field F] (bc : Bool) (lhs rhs : List Bool) : Prop :=
  ∀ pr ∈ lhs.zip rhs, eubcHolds (F := F) bc (b2f pr.1) (b2f pr.2)

theorem eubcHolds_iff {F : Type} [Field F] (bc : Bool) (lhs rhs : F) :
    eubcHolds bc lhs rhs ↔ (lhs - rhs) * (1 - b2f bc) = 0 := by
  constructor
  · rintro ⟨a, b, c, hab, ha, hb, hc⟩
    have ha' : a = lhs - rhs := by linear_combination ha
    have hb' : b = 1 - b2f bc := by linear_combination hb
    rw [← ha', ← hb', hab, hc]
  · intro h
    exact ⟨lhs - rhs, 1 - b2f bc, 0, by rw [h], by ring, by ring, rfl⟩

theorem eubcHolds_true {F : Type} [Field F] (lhs rhs : F) :
    eubcHolds true lhs rhs := by
  rw [eubcHolds_iff]
  simp [b2f]

theorem eubcHolds_false_iff {F : Type} [Field F] (lhs rhs : F) :
    eubcHolds false lhs rhs ↔ lhs = rhs := by
  rw [eubcHolds_iff]
  simp [b2f, sub_eq_zero]

theorem b2f_eq_iff {F : Type} [Field F] (l r : Bool) :
    (b2f l : F) = b2f r ↔ l = r := by
  cases l <;> cases r <;> simp [b2f]

theorem eubcSat_true (F : Type) [Field F] (lhs rhs : List Bool) :
    eubcSat F true lhs rhs :=
  fun _ _ => eubcHolds_true _ _

theorem eubcSat_false_iff (F : Type) [Field F] :
    ∀ (lhs rhs : List Bool), lhs.length = rhs.length →
      (eubcSat F false lhs rhs ↔ lhs = rhs)
  | [], [], _ => by simp [eubcSat]
  | [], _ :: _, h => by simp at h
  | _ :: _, [], h => by simp at h
  | l :: ls, r :: rs, h => by
      have ih := eubcSat_false_iff F ls rs (by simpa using h)
      unfold eubcSat
      rw [List.zip_cons_cons, List.forall_mem_cons, List.cons_eq_cons]
      exact and_congr ((eubcHolds_false_iff _ _).trans (b2f_eq_iff l r)) ih

/-- C8: the conditional-equality helpers emit, per field element or per
bit, constraints equivalent to `(lhs - rhs) * (1 - base_case) = 0`:
with `base_case = false` they hold exactly when the operands are equal
(elementwise for bit vectors), and with `base_case = true` they hold for
all operands. -/
theorem C8_equal_unless_base_case {F : Type} [Field F] (bcB : Bool) :
    (∀ lhs rhs : F, eubcHolds bcB lhs rhs ↔ (lhs - rhs) * (1 - b2f bcB) = 0)
    ∧ (bcB = false → ∀ lhs rhs : F, eubcHolds bcB lhs rhs ↔ lhs = rhs)
    ∧ (bcB = true → ∀ lhs rhs : F, eubcHolds bcB lhs rhs)
    ∧ (∀ lhs rhs : List Bool, lhs.length = rhs.length →
        (bcB = false → (eubcSat F bcB lhs rhs ↔ lhs = rhs))
        ∧ (bcB = true → eubcSat F bcB lhs rhs)) := by
  refine ⟨fun lhs rhs => eubcHolds_iff bcB lhs rhs, ?_, ?_, ?_⟩
  · intro hb lhs rhs
    subst hb
    exact eubcHolds_false_iff lhs rhs
  · intro hb lhs rhs
    subst hb
    exact eubcHolds_true lhs rhs
  · intro lhs rhs hlen
    refine ⟨fun hb => ?_, fun hb => ?_⟩
    · subst hb; exact eubcSat_false_iff F lhs rhs hlen
    · subst hb; exact eubcSat_true F lhs rhs

/-- Witness for C8 over the rationals with `base_case = false`. -/
theorem C8_equal_unless_base_case_witness :
    eubcSat ℚ false [true, false] [true, false] :=
  (((C8_equal_unless_base_case (F := ℚ) false).2.2.2
    [true, false] [true, false] rfl).1 rfl).mpr rfl

/-! ## Witness closures and absent optional inputs -/

/-- The witness-closure pattern for values taken from the optional prior
proof, as in `r_commitment`, the round `L`/`R`/`l`/`r` witnesses and the
final scalars: `self.proof.map(|proof| ...).unwrap_or(zero)` — the
closure always succeeds, substituting zero when the proof is absent. -/
def witness_from_proof {P G : Type} [Zero G] (proof : Option P) (f : P → G) :
    Except SynthesisError G :=
  Except.ok ((proof.map f).getD 0)

/-- The `base_case` witness closure:
`self.base_case.ok_or(SynthesisError::AssignmentMissing)`. -/
def base_case_witness (base_case : Option Bool) : Except SynthesisError Bool :=
  match base_case with
  | some b => Except.ok b
  | none => Except.error SynthesisError.AssignmentMissing

/-- The witness closure of `equal_unless_base_case`: every absent operand
fails with `AssignmentMissing`, otherwise the closure yields
`(lhs - rhs, 1 - base_case, 0)`. -/
def equal_unless_base_case_witness {F : Type} [Field F]
    (lhs rhs : Option Bool) (not_basecase : Option F) :
    Except SynthesisError (F × F × F) :=
  match lhs, rhs, not_basecase with
  | some l, some r, some nb => Except.ok (b2f l - b2f r, nb, 0)
  | _, _, _ => Except.error SynthesisError.AssignmentMissing

/-- Counterexample to C5 as stated: with the prior proof absent
(verifier-shape mode) the `r_commitment`-style witness closure returns
`Ok(0)` — a zero default is substituted — instead of failing with
`AssignmentMissing`. -/
theorem C5_default_substituted :
    witness_from_proof (P := Unit) (G := Int) none (fun _ => 3) = Except.ok 0
    ∧ witness_from_proof (P := Unit) (G := Int) none (fun _ => 3) ≠
        Except.error SynthesisError.AssignmentMissing :=
  ⟨rfl, fun h => Except.noConfusion h⟩

/-- C5 (amended): the witness closures for `base_case` and for the
conditional-equality operands fail with `AssignmentMissing` when the
value is absent, while point/scalar witnesses drawn from an absent prior
proof substitute the zero default. -/
theorem C5_absent_witness_behaviour {P G F : Type} [Zero G] [Field F] :
    base_case_witness none = Except.error SynthesisError.AssignmentMissing
    ∧ (∀ (r : Option Bool) (nb : Option F),
        equal_unless_base_case_witness none r nb =
          Except.error SynthesisError.AssignmentMissing)
    ∧ (∀ l r : Option Bool,
        equal_unless_base_case_witness (F := F) l r none =
          Except.error SynthesisError.AssignmentMissing)
    ∧ (∀ f : P → G, witness_from_proof none f = Except.ok 0) := by
  refine ⟨rfl, ?_, ?_, fun f => rfl⟩
  · intro r nb
    cases r <;> cases nb <;> rfl
  · intro l r
    cases l <;> cases r <;> rfl

/-! ## The in-circuit IPA verifier (`verify_inner_product`) -/

/-- Modelled from the spec: the gadget environment of the verification
circuit — affine coordinates of curve points (`CurvePoint::get_xy`),
challenge-bit extraction from the transcript state (`squeeze` followed by
`unpack_fe` and `get_challenge`'s truncation), the 256-bit canonical
decomposition used by `witness_bits_from_fe`, and the fixed generator
`E2::one()`.  The transcript state is the list of absorbed field
elements, so absorption order is captured exactly. -/
structure CircuitEnv (F G : Type) where
  xy : G → F × F
  chal : List F → List Bool
  feBits : F → List Bool
  gOne : G

/-- The witnessed inner-product data of the prior proof, indexed by round
`i` and instance `j`: commitment points `L`, `R`, opening scalars `l`,
`r` (committed in the source as `E2::one() * scalar`), the final basis
point `g` and the final per-instance scalars `a`. -/
structure IPWitness (F G : Type) where
  Lw : Nat → Nat → G
  Rw : Nat → Nat → G
  lsw : Nat → Nat → F
  rsw : Nat → Nat → F
  gN : G
  aw : Nat → F

/-- Scalar value of a little-endian challenge bit vector in the field. -/
def bitsScalar (F : Type) [Field F] (bs : List Bool) : F := (bitsVal bs : F)

/-- `commit_point`: absorb the x coordinate, then the y coordinate. -/
def absorbPoint {F G : Type} (env : CircuitEnv F G) (t : List F) (pt : G) :
    List F :=
  t ++ [(env.xy pt).1, (env.xy pt).2]

/-- The absorption phase of one folding round: for each tracked instance
`j` in order, witness and absorb `L`, `R`, `l`, `r`. -/
def absorbRound {F G : Type} [Field F] [AddCommGroup G] [Module F G]
    (env : CircuitEnv F G) (w : IPWitness F G) (i n : Nat) (t : List F) :
    List F :=
  (List.range n).foldl (fun t j =>
    absorbPoint env (absorbPoint env (absorbPoint env (absorbPoint env t
      (w.Lw i j)) (w.Rw i j)) (w.lsw i j • env.gOne)) (w.rsw i j • env.gOne)) t

/-- State of the folding loop: transcript, folded commitments, folded
openings, and the challenges squeezed so far. -/
structure IPState (F G : Type) where
  t : List F
  p : List G
  v : List G
  chs : List (List Bool)

/-- Indexed update of the tracked instances, as in the
`for (j, tmp) in tmp.into_iter().enumerate()` loop. -/
def updIdx {α : Type} (f : Nat → α → α) : Nat → List α → List α
  | _, [] => []
  | i, x :: xs => f i x :: updIdx f (i + 1) xs

/-- One commitment or opening fold,
`p ← p + challenge²·X + challenge⁻²·Y`, via two `multiply_fast` and two
`multiply_inv_fast` applications. -/
def foldPoint {F G : Type} [Field F] [AddCommGroup G] [Module F G]
    (c : F) (pt X Y : G) : G :=
  pt + c • (c • X) + c⁻¹ • (c⁻¹ • Y)

/-- One round of `verify_inner_product`: absorb all round witnesses,
squeeze the round challenge, then fold every tracked commitment and
opening. -/
def ipStep {F G : Type} [Field F] [AddCommGroup G] [Module F G]
    (env : CircuitEnv F G) (w : IPWitness F G) (n i : Nat) (s : IPState F G) :
    IPState F G :=
  let t := absorbRound env w i n s.t
  let ch := env.chal t
  let c : F := bitsScalar F ch
  { t := t
    chs := s.chs ++ [ch]
    p := updIdx (fun j pj => foldPoint c pj (w.Lw i j) (w.Rw i j)) 0 s.p
    v := updIdx (fun j vj => foldPoint c vj (w.lsw i j • env.gOne)
      (w.rsw i j • env.gOne)) 0 s.v }

/-- The `for i in 0..k` folding loop of `verify_inner_product`. -/
def ipRounds {F G : Type} [Field F] [AddCommGroup G] [Module F G]
    (env : CircuitEnv F G) (w : IPWitness F G) (n k : Nat) (s0 : IPState F G) :
    IPState F G :=
  (List.range k).foldl (fun s i => ipStep env w n i s) s0

/-- `verify_inner_product`: run the `k` folding rounds starting from the
supplied commitments and openings with an empty challenge list. -/
def verify_inner_product {F G : Type} [Field F] [AddCommGroup G] [Module F G]
    (env : CircuitEnv F G) (w : IPWitness F G) (k : Nat) (t0 : List F)
    (commitments openings : List G) : IPState F G :=
  ipRounds env w commitments.length k ⟨t0, commitments, openings, []⟩

/-- The round-`i` challenge scalar: the challenge squeezed from the
transcript right after the round-`i` witnesses are absorbed. -/
def roundCh {F G : Type} [Field F] [AddCommGroup G] [Module F G]
    (env : CircuitEnv F G) (w : IPWitness F G) (n : Nat) (t0 : List F)
    (cms ops : List G) (i : Nat) : F :=
  bitsScalar F (env.chal (absorbRound env w i n
    (ipRounds env w n i ⟨t0, cms, ops, []⟩).t))

/-- The pair of `num_equal_unless_base_case` constraints comparing the
affine coordinates of two points. -/
def pointEqChecks {F G : Type} [Field F] (env : CircuitEnv F G) (bc : Bool)
    (p1 p2 : G) : Prop :=
  eubcHolds (F := F) bc (env.xy p1).1 (env.xy p2).1 ∧
    eubcHolds (F := F) bc (env.xy p1).2 (env.xy p2).2

/-- The terminal checks of `verify_inner_product`: for every tracked
instance `j`, compare the folded commitment with `[a_j]·g_new` and the
folded opening with `[b_j]([a_j]·G)`, coordinatewise, through the
conditional-equality gates. -/
def ipFinalChecks {F G : Type} [Field F] [AddCommGroup G] [Module F G]
    (env : CircuitEnv F G) (w : IPWitness F G) (bc : Bool) (n : Nat)
    (b : Nat → List Bool) (p v : List G) : Prop :=
  ∀ j, j < n →
    (pointEqChecks env bc (p.getD j 0)
        (bitsScalar F (env.feBits (w.aw j)) • w.gN)
      ∧ pointEqChecks env bc (v.getD j 0)
        (bitsScalar F (b j) • (bitsScalar F (env.feBits (w.aw j)) • env.gOne)))

theorem updIdx_length {α : Type} (f : Nat → α → α) :
    ∀ (i : Nat) (l : List α), (updIdx f i l).length = l.length
  | _, [] => rfl
  | i, x :: xs => by simp [updIdx, updIdx_length f (i + 1) xs]

theorem updIdx_getD {α : Type} (f : Nat → α → α) (d : α) :
    ∀ (i : Nat) (l : List α) (j : Nat), j < l.length →
      (updIdx f i l).getD j d = f (i + j) (l.getD j d)
  | i, [], j, h => by simp at h
  | i, x :: xs, 0, h => by simp [updIdx]
  | i, x :: xs, j + 1, h => by
      have ih := updIdx_getD f d (i + 1) xs j (by simpa using h)
      simp only [updIdx, List.getD_cons_succ]
      rw [ih]
      congr 1
      omega

section IPLemmas

variable {F G : Type} [Field F] [AddCommGroup G] [Module F G]
variable (env : CircuitEnv F G) (w : IPWitness F G)

theorem ipStep_chs (n i : Nat) (s : IPState F G) :
    (ipStep env w n i s).chs =
      s.chs ++ [env.chal (absorbRound env w i n s.t)] := rfl

theorem ipStep_p (n i : Nat) (s : IPState F G) :
    (ipStep env w n i s).p =
      updIdx (fun j pj =>
        foldPoint (bitsScalar F (env.chal (absorbRound env w i n s.t)))
          pj (w.Lw i j) (w.Rw i j)) 0 s.p := rfl

theorem ipStep_v (n i : Nat) (s : IPState F G) :
    (ipStep env w n i s).v =
      updIdx (fun j vj =>
        foldPoint (bitsScalar F (env.chal (absorbRound env w i n s.t)))
          vj (w.lsw i j • env.gOne) (w.rsw i j • env.gOne)) 0 s.v := rfl

theorem ipRounds_succ (n k : Nat) (s0 : IPState F G) :
    ipRounds env w n (k + 1) s0 = ipStep env w n k (ipRounds env w n k s0) := by
  rw [ipRounds, ipRounds, List.range_succ, List.foldl_append, List.foldl_cons,
    List.foldl_nil]

theorem ipRounds_chs_length (n k : Nat) (s0 : IPState F G) :
    (ipRounds env w n k s0).chs.length = s0.chs.length + k := by
  induction k with
  | zero => rfl
  | succ k ih =>
      rw [ipRounds_succ, ipStep_chs, List.length_append, ih]
      simp
      omega

theorem ipRounds_p_length (n k : Nat) (s0 : IPState F G) :
    (ipRounds env w n k s0).p.length = s0.p.length := by
  induction k with
  | zero => rfl
  | succ k ih => rw [ipRounds_succ, ipStep_p, updIdx_length, ih]

theorem ipRounds_v_length (n k : Nat) (s0 : IPState F G) :
    (ipRounds env w n k s0).v.length = s0.v.length := by
  induction k with
  | zero => rfl
  | succ k ih => rw [ipRounds_succ, ipStep_v, updIdx_length, ih]

theorem ipRounds_chs_getD_stable (n : Nat) (s0 : IPState F G) (k i : Nat)
    (hi : i < s0.chs.length + k) :
    (ipRounds env w n (k + 1) s0).chs.getD i [] =
      (ipRounds env w n k s0).chs.getD i [] := by
  rw [ipRounds_succ, ipStep_chs,
    List.getD_append _ _ _ _ (by rw [ipRounds_chs_length]; omega)]

theorem ipRounds_chs_getD_last (n : Nat) (s0 : IPState F G) (k : Nat) :
    (ipRounds env w n (k + 1) s0).chs.getD (s0.chs.length + k) [] =
      env.chal (absorbRound env w k n (ipRounds env w n k s0).t) := by
  rw [ipRounds_succ, ipStep_chs]
  have hl := ipRounds_chs_length env w n k s0
  rw [← hl, List.getD_append_right _ _ _ _ (le_refl _)]
  simp

theorem ipRounds_chs_getD_eq (n : Nat) (s0 : IPState F G) :
    ∀ K i, i < K →
      (ipRounds env w n K s0).chs.getD (s0.chs.length + i) [] =
        env.chal (absorbRound env w i n (ipRounds env w n i s0).t) := by
  intro K
  induction K with
  | zero => intro i h; omega
  | succ K ih =>
      intro i h
      rcases Nat.lt_or_ge i K with h' | h'
      · rw [ipRounds_chs_getD_stable env w n s0 K _ (by omega)]
        exact ih i h'
      · have hik : i = K := by omega
        subst hik
        exact ipRounds_chs_getD_last env w n s0 i

theorem ipRounds_p_closed (n : Nat) (t0 : List F) (cms ops : List G) (k : Nat) :
    ∀ j, j < cms.length →
      (ipRounds env w n k ⟨t0, cms, ops, []⟩).p.getD j 0 =
        cms.getD j 0 + ∑ i ∈ Finset.range k,
          (roundCh env w n t0 cms ops i •
              (roundCh env w n t0 cms ops i • w.Lw i j) +
            (roundCh env w n t0 cms ops i)⁻¹ •
              ((roundCh env w n t0 cms ops i)⁻¹ • w.Rw i j)) := by
  induction k with
  | zero => intro j hj; simp [ipRounds]
  | succ k ih =>
      intro j hj
      rw [ipRounds_succ, ipStep_p]
      have hlp : (ipRounds env w n k
          (⟨t0, cms, ops, []⟩ : IPState F G)).p.length = cms.length :=
        ipRounds_p_length env w n k _
      rw [updIdx_getD _ 0 0 _ j (by rw [hlp]; exact hj)]
      simp only [Nat.zero_add]
      rw [ih j hj, Finset.sum_range_succ]
      simp only [foldPoint, roundCh]
      abel

theorem ipRounds_v_closed (n : Nat) (t0 : List F) (cms ops : List G) (k : Nat) :
    ∀ j, j < ops.length →
      (ipRounds env w n k ⟨t0, cms, ops, []⟩).v.getD j 0 =
        ops.getD j 0 + ∑ i ∈ Finset.range k,
          (roundCh env w n t0 cms ops i •
              (roundCh env w n t0 cms ops i • (w.lsw i j • env.gOne)) +
            (roundCh env w n t0 cms ops i)⁻¹ •
              ((roundCh env w n t0 cms ops i)⁻¹ • (w.rsw i j • env.gOne))) := by
  induction k with
  | zero => intro j hj; simp [ipRounds]
  | succ k ih =>
      intro j hj
      rw [ipRounds_succ, ipStep_v]
      have hlv : (ipRounds env w n k
          (⟨t0, cms, ops, []⟩ : IPState F G)).v.length = ops.length :=
        ipRounds_v_length env w n k _
      rw [updIdx_getD _ 0 0 _ j (by rw [hlv]; exact hj)]
      simp only [Nat.zero_add]
      rw [ih j hj, Finset.sum_range_succ]
      simp only [foldPoint, roundCh]
      abel

omit [AddCommGroup G] [Module F G] in
theorem pointEqChecks_true (p1 p2 : G) :
    pointEqChecks (F := F) env true p1 p2 :=
  ⟨eubcHolds_true _ _, eubcHolds_true _ _⟩

omit [AddCommGroup G] [Module F G] in
theorem pointEqChecks_false_iff (hinj : Function.Injective env.xy)
    (p1 p2 : G) : pointEqChecks (F := F) env false p1 p2 ↔ p1 = p2 := by
  rw [pointEqChecks, eubcHolds_false_iff, eubcHolds_false_iff]
  constructor
  · rintro ⟨h1, h2⟩
    exact hinj (Prod.ext h1 h2)
  · rintro rfl
    exact ⟨rfl, rfl⟩

end IPLemmas

/-- C3: `verify_inner_product` runs exactly `k` folding rounds; the
round-`i` challenge is squeezed right after the round-`i` witnesses are
absorbed; every tracked commitment folds to
`p_j + Σ_i (c_i²·L_{i,j} + c_i⁻²·R_{i,j})` and every tracked opening
analogously with the `l`/`r` scalars on the fixed generator; and the
terminal per-instance constraints hold vacuously when `base_case` is
true, while with `base_case` false they hold exactly when every folded
commitment equals `[a_j]·G_new` and every folded opening equals
`[a_j·b_j]·G` for the witnessed scalar `a_j` and supplied bit string
`b_j`. -/
theorem C3_verify_inner_product {F G : Type} [Field F] [AddCommGroup G]
    [Module F G] (env : CircuitEnv F G) (w : IPWitness F G) (k : Nat)
    (t0 : List F) (cms ops : List G) (b : Nat → List Bool) (bc : Bool)
    (hinj : Function.Injective env.xy)
    (hfe : ∀ x : F, bitsScalar F (env.feBits x) = x) :
    (verify_inner_product env w k t0 cms ops).chs.length = k
    ∧ (∀ i, i < k →
        (verify_inner_product env w k t0 cms ops).chs.getD i [] =
          env.chal (absorbRound env w i cms.length
            (ipRounds env w cms.length i ⟨t0, cms, ops, []⟩).t))
    ∧ (∀ j, j < cms.length →
        (verify_inner_product env w k t0 cms ops).p.getD j 0 =
          cms.getD j 0 + ∑ i ∈ Finset.range k,
            (bitsScalar F ((verify_inner_product env w k t0 cms ops).chs.getD i []) •
                (bitsScalar F ((verify_inner_product env w k t0 cms ops).chs.getD i []) •
                  w.Lw i j) +
              (bitsScalar F ((verify_inner_product env w k t0 cms ops).chs.getD i []))⁻¹ •
                ((bitsScalar F ((verify_inner_product env w k t0 cms ops).chs.getD i []))⁻¹ •
                  w.Rw i j)))
    ∧ (∀ j, j < ops.length →
        (verify_inner_product env w k t0 cms ops).v.getD j 0 =
          ops.getD j 0 + ∑ i ∈ Finset.range k,
            (bitsScalar F ((verify_inner_product env w k t0 cms ops).chs.getD i []) •
                (bitsScalar F ((verify_inner_product env w k t0 cms ops).chs.getD i []) •
                  (w.lsw i j • env.gOne)) +
              (bitsScalar F ((verify_inner_product env w k t0 cms ops).chs.getD i []))⁻¹ •
                ((bitsScalar F ((verify_inner_product env w k t0 cms ops).chs.getD i []))⁻¹ •
                  (w.rsw i j • env.gOne))))
    ∧ (bc = true → ipFinalChecks env w bc cms.length b
        (verify_inner_product env w k t0 cms ops).p
        (verify_inner_product env w k t0 cms ops).v)
    ∧ (bc = false →
        (ipFinalChecks env w bc cms.length b
            (verify_inner_product env w k t0 cms ops).p
            (verify_inner_product env w k t0 cms ops).v ↔
          ∀ j, j < cms.length →
            ((verify_inner_product env w k t0 cms ops).p.getD j 0 = w.aw j • w.gN
              ∧ (verify_inner_product env w k t0 cms ops).v.getD j 0 =
                (bitsScalar F (b j) * w.aw j) • env.gOne))) := by
  have hchal : ∀ i, i < k →
      (verify_inner_product env w k t0 cms ops).chs.getD i [] =
        env.chal (absorbRound env w i cms.length
          (ipRounds env w cms.length i ⟨t0, cms, ops, []⟩).t) := by
    intro i hi
    have h := ipRounds_chs_getD_eq env w cms.length
      (⟨t0, cms, ops, []⟩ : IPState F G) k i hi
    simpa [verify_inner_product] using h
  have hchs : ∀ i, i < k →
      bitsScalar F ((verify_inner_product env w k t0 cms ops).chs.getD i []) =
        roundCh env w cms.length t0 cms ops i := by
    intro i hi
    rw [hchal i hi, roundCh]
  refine ⟨?_, hchal, ?_, ?_, ?_, ?_⟩
  · have h := ipRounds_chs_length env w cms.length k
      (⟨t0, cms, ops, []⟩ : IPState F G)
    simpa [verify_inner_product] using h
  · intro j hj
    rw [show (verify_inner_product env w k t0 cms ops).p =
        (ipRounds env w cms.length k ⟨t0, cms, ops, []⟩).p from rfl,
      ipRounds_p_closed env w cms.length t0 cms ops k j hj]
    congr 1
    refine Finset.sum_congr rfl fun i hi => ?_
    rw [hchs i (Finset.mem_range.mp hi)]
  · intro j hj
    rw [show (verify_inner_product env w k t0 cms ops).v =
        (ipRounds env w cms.length k ⟨t0, cms, ops, []⟩).v from rfl,
      ipRounds_v_closed env w cms.length t0 cms ops k j hj]
    congr 1
    refine Finset.sum_congr rfl fun i hi => ?_
    rw [hchs i (Finset.mem_range.mp hi)]
  · intro hbc
    subst hbc
    exact fun j _ => ⟨pointEqChecks_true env _ _, pointEqChecks_true env _ _⟩
  · intro hbc
    subst hbc
    constructor
    · intro h j hj
      obtain ⟨h1, h2⟩ := h j hj
      rw [pointEqChecks_false_iff env hinj] at h1 h2
      refine ⟨?_, ?_⟩
      · rw [h1, hfe]
      · rw [h2, hfe, smul_smul]
    · intro h j hj
      obtain ⟨h1, h2⟩ := h j hj
      constructor
      · rw [pointEqChecks_false_iff env hinj, h1, hfe]
      · rw [pointEqChecks_false_iff env hinj, h2, hfe, smul_smul]

instance : Fact (Nat.Prime 5) := ⟨by norm_num⟩

/-- A concrete gadget environment over `ZMod 5`, used to instantiate the
circuit theorems on concrete inputs. -/
def zmodCircuitEnv : CircuitEnv (ZMod 5) (ZMod 5) where
  xy := fun g => (g, 0)
  chal := fun _ => [true]
  feBits := fun x => natBits x.val 3
  gOne := 1

/-- A concrete inner-product witness over `ZMod 5`. -/
def zmodIPWitness : IPWitness (ZMod 5) (ZMod 5) where
  Lw := fun _ _ => 1
  Rw := fun _ _ => 2
  lsw := fun _ _ => 1
  rsw := fun _ _ => 1
  gN := 1
  aw := fun _ => 1

/-- Witness for C3 at a concrete instantiation over `ZMod 5`. -/
theorem C3_verify_inner_product_witness :
    (verify_inner_product zmodCircuitEnv zmodIPWitness 2 [] [0, 3] [1, 4]).chs.length
      = 2 :=
  (C3_verify_inner_product zmodCircuitEnv zmodIPWitness 2 [] [0, 3] [1, 4]
    (fun _ => [true]) false (fun a b h => congrArg Prod.fst h) (by decide)).1

/-! ## Constraints on the new accumulator and deferred public inputs -/

/-- The slice `l[a .. a + n]` of a bit vector, as the source's range
indexing of the input bit slices. -/
def bitSlice (l : List Bool) (a n : Nat) : List Bool := (l.drop a).take n

/-- The `enforce_zero` constraints placed on a run of bits. -/
def allFalseBits (l : List Bool) : Prop := ∀ b ∈ l, b = false

/-- The constraints `verify_proof` places on the `new_leftovers` and
`new_deferred` public-input bits (source lines 1018–1125): conditional
equalities of the recomputed `s_new_commitment` and `g_new` coordinates,
the `y_new`/`y_cur`/`x` challenges and the fresh folding challenges
against their designated bit slices, plus unconditional zero constraints
on the upper 128 bits of every 256-bit challenge-bearing slot. -/
def newStateConstraints (F : Type) [Field F] (k : Nat) (bc : Bool)
    (sncx sncy gnx gny ynew ycur xch : List Bool) (chs : Nat → List Bool)
    (nl nd : List Bool) : Prop :=
  eubcSat F bc sncx (bitSlice nl 0 256)
  ∧ eubcSat F bc sncy (bitSlice nl 256 256)
  ∧ eubcSat F bc ynew (bitSlice nl 512 128)
  ∧ allFalseBits (bitSlice nl (512 + 128) 128)
  ∧ eubcSat F bc gnx (bitSlice nl (256 * 3) 256)
  ∧ eubcSat F bc gny (bitSlice nl (256 * 4) 256)
  ∧ (∀ i, i < k →
      (eubcSat F bc (chs i) (bitSlice nl (256 * 5 + 256 * i) 128)
        ∧ allFalseBits (bitSlice nl (256 * 5 + 256 * i + 128) 128)
        ∧ eubcSat F bc (chs i) (bitSlice nd (256 * (11 + k) + 256 * i) 128)
        ∧ allFalseBits (bitSlice nd (256 * (11 + k) + 256 * i + 128) 128)))
  ∧ eubcSat F bc xch (bitSlice nd 0 128)
  ∧ allFalseBits (bitSlice nd 128 128)
  ∧ eubcSat F bc ycur (bitSlice nd (256 * 2) 128)
  ∧ allFalseBits (bitSlice nd (256 * 2 + 128) 128)
  ∧ eubcSat F bc ynew (bitSlice nd (256 * 3) 128)
  ∧ allFalseBits (bitSlice nd (256 * 3 + 128) 128)

/-- The unconditional zero constraints of the block alone. -/
def newStateZeroBits (k : Nat) (nl nd : List Bool) : Prop :=
  allFalseBits (bitSlice nl (512 + 128) 128)
  ∧ (∀ i, i < k →
      (allFalseBits (bitSlice nl (256 * 5 + 256 * i + 128) 128)
        ∧ allFalseBits (bitSlice nd (256 * (11 + k) + 256 * i + 128) 128)))
  ∧ allFalseBits (bitSlice nd 128 128)
  ∧ allFalseBits (bitSlice nd (256 * 2 + 128) 128)
  ∧ allFalseBits (bitSlice nd (256 * 3 + 128) 128)

/-- Counterexample to C6 as stated: with `base_case = true` and a dummy
`new_leftovers` whose bits are all ones, the unconditional zero
constraint on bits 640–767 (the upper half of the `y_new` slot) is
violated, so base-case satisfiability does depend on the dummy bit
patterns. -/
theorem C6_base_case_depends_on_dummy :
    ¬ newStateConstraints ℚ 0 true (List.replicate 256 false)
      (List.replicate 256 false) (List.replicate 256 false)
      (List.replicate 256 false) (List.replicate 128 false)
      (List.replicate 128 false) (List.replicate 128 false) (fun _ => [])
      (List.replicate 1280 true) (List.replicate 4096 false) := by
  intro h
  have hz : allFalseBits (bitSlice (List.replicate 1280 true) (512 + 128) 128) :=
    h.2.2.2.1
  have hmem : (true : Bool) ∈ bitSlice (List.replicate 1280 true) (512 + 128) 128 := by
    rw [bitSlice, List.drop_replicate, List.take_replicate, List.mem_replicate]
    norm_num
  exact absurd (hz true hmem) (by simp)

/-- C6 (amended): with `base_case = true`, every conditional-equality
constraint of the block is satisfiable whatever the dummy bit patterns,
and the block as a whole reduces exactly to the unconditional zero
constraints on the designated upper-half bit ranges of `new_leftovers`
and `new_deferred`; base-case verification depends on those dummy bits
being zero and on nothing else. -/
theorem C6_base_case_constraints {F : Type} [Field F] (k : Nat)
    (sncx sncy gnx gny ynew ycur xch : List Bool) (chs : Nat → List Bool)
    (nl nd : List Bool) :
    newStateConstraints F k true sncx sncy gnx gny ynew ycur xch chs nl nd ↔
      newStateZeroBits k nl nd := by
  unfold newStateConstraints newStateZeroBits
  constructor
  · rintro ⟨_, _, _, h4, _, _, h7, _, h9, _, h11, _, h13⟩
    exact ⟨h4, fun i hi => ⟨(h7 i hi).2.1, (h7 i hi).2.2.2⟩, h9, h11, h13⟩
  · rintro ⟨h1, h2, h3, h4, h5⟩
    exact ⟨eubcSat_true F _ _, eubcSat_true F _ _, eubcSat_true F _ _, h1,
      eubcSat_true F _ _, eubcSat_true F _ _,
      fun i hi => ⟨eubcSat_true F _ _, (h2 i hi).1, eubcSat_true F _ _,
        (h2 i hi).2⟩,
      eubcSat_true F _ _, h3, eubcSat_true F _ _, h4, eubcSat_true F _ _, h5⟩

end HaloRecursion
